import Mathlib

/-!
Verification of the libsass semantic core against its specification.

The development shallowly embeds the relevant parts of the source:

* `src/source_map.cpp` — mapping serialization (`SourceMap::serialize_mappings`),
  `SourceMap::prepend` for output buffers and offsets;
* `src/ast.hpp` — selector specificity, `Ruleset::is_invisible`, the
  `Vectorized` and `Hashed` mixins, the `Expression` constructor flags;
* `src/node.cpp` — `Node::naiveTrim`.

Machine integers (`size_t`, `int`) are modelled as `Nat`/`Int`; the values
involved (line/column counters, specificity sums) never approach the word
size, and deltas that can be negative are computed in `Int` exactly as the
C++ casts do.  Code of the repository that is referenced but not part of the
given sources (the Base64-VLQ encoder, the specificity constants, the
`Position`/`Offset` arithmetic helpers) is modelled from the specification
text; each such definition carries a doc comment saying so.
-/

namespace Sass

/-- Position as in `position.hpp`: `(file, line, column)`, zero based. -/
structure Position where
  file : Nat
  line : Nat
  column : Nat
deriving Repr, DecidableEq

/-- Offset as in the spec §3.1: `(line_delta, column_delta)`. -/
structure Offset where
  line : Nat
  column : Nat
deriving Repr, DecidableEq

/-- A source-map mapping: `Mapping(original_position, generated_position)`. -/
structure Mapping where
  original : Position
  generated : Position
deriving Repr, DecidableEq

namespace VLQ

/-- The standard Base64 alphabet, per spec §6. -/
def base64Chars : List Char :=
  ['A', 'B', 'C', 'D', 'E', 'F', 'G', 'H', 'I', 'J', 'K', 'L', 'M',
   'N', 'O', 'P', 'Q', 'R', 'S', 'T', 'U', 'V', 'W', 'X', 'Y', 'Z',
   'a', 'b', 'c', 'd', 'e', 'f', 'g', 'h', 'i', 'j', 'k', 'l', 'm',
   'n', 'o', 'p', 'q', 'r', 's', 't', 'u', 'v', 'w', 'x', 'y', 'z',
   '0', '1', '2', '3', '4', '5', '6', '7', '8', '9', '+', '/']

/-- Character for a 6-bit Base64 digit. -/
def b64Char (d : Nat) : Char := base64Chars.getD d 'A'

/-- Inverse of `b64Char`: index of a character in the Base64 alphabet. -/
def b64Idx (c : Char) : Option Nat :=
  if c ∈ base64Chars then some (base64Chars.indexOf c) else none

/-- Modelled from the spec: Base64-VLQ sign handling (`base64vlq.cpp` is not
under `src/`).  "the sign is placed in the LSB of the first group
(value = shift-left 1 bit, OR sign)". -/
def vlqSigned (v : Int) : Nat :=
  if v < 0 then 2 * v.natAbs + 1 else 2 * v.natAbs

/-- Inverse of `vlqSigned`. -/
def fromVlqSigned (n : Nat) : Int :=
  if n % 2 = 1 then -((n / 2 : Nat) : Int) else ((n / 2 : Nat) : Int)

/-- Little-endian base-32 digit decomposition of a `Nat` (at least one digit),
per spec §6: "groups of 5 data bits, least-significant group first". -/
def vlqDigits (n : Nat) : List Nat :=
  if h : n < 32 then [n]
  else
    have : n / 32 < n := Nat.div_lt_self (by omega) (by omega)
    n % 32 :: vlqDigits (n / 32)

/-- Value of a little-endian base-32 digit list. -/
def digitsVal : List Nat → Nat
  | [] => 0
  | d :: ds => d + 32 * digitsVal ds

/-- Characters of a digit list: every group except the last carries the
continuation bit (value 32). -/
def vlqChars : List Nat → List Char
  | [] => []
  | [d] => [b64Char d]
  | d :: ds => b64Char (d + 32) :: vlqChars ds

/-- Modelled from the spec: `Base64VLQ::encode` (`base64vlq.cpp` is not under
`src/`): signed value, 5-bit groups, least-significant first, continuation
bit, standard Base64 alphabet. -/
def encode (v : Int) : List Char := vlqChars (vlqDigits (vlqSigned v))

end VLQ

/-- Decoded coordinates of one mappings-stream entry:
`(generated line, generated column, source index, original line, original column)`. -/
abbrev DecodedEntry := Nat × Nat × Nat × Nat × Nat

/-- The triple a mapping contributes to the stream, in the claim's sense:
generated position, source index, original position. -/
def mappingTriple (m : Mapping) : DecodedEntry :=
  (m.generated.line, m.generated.column, m.original.file, m.original.line, m.original.column)

/-- State of the mappings-stream decoder. -/
structure DecSt where
  ok : Bool
  line : Nat
  pg : Int
  pf : Int
  pl : Int
  pc : Int
  cur : Option (Nat × Nat)
  vals : List Int
  needSep : Bool
  expectVal : Bool
  out : List DecodedEntry
deriving Repr

/-- Mark the decode as failed. -/
def failSt (st : DecSt) : DecSt := { st with ok := false }

/-- Record a completed VLQ value.  The fourth value of an entry resolves the
four deltas against the previous-entry counters and emits the absolute
`(generated, source index, original)` coordinates. -/
def completeVal (st : DecSt) (v : Int) : DecSt :=
  match st.vals with
  | [dg, df, dl] =>
    { st with
      cur := none, vals := [], expectVal := false, needSep := true,
      pg := st.pg + dg, pf := st.pf + df, pl := st.pl + dl, pc := st.pc + v,
      out := (st.line, (st.pg + dg).toNat, (st.pf + df).toNat,
              (st.pl + dl).toNat, (st.pc + v).toNat) :: st.out }
  | vs => { st with cur := none, vals := vs ++ [v], expectVal := false }

/-- One decoder step.  `;` closes a generated line (resetting the previous
generated column, the other counters persist); `,` separates entries within a
line; Base64 characters extend the current VLQ group.  Any deviation from the
grouped format (an entry without exactly four fields, a missing or doubled
separator, a stray character) fails the decode. -/
def decodeStep (st : DecSt) (ch : Char) : DecSt :=
  if st.ok = false then st
  else if ch = ';' then
    if st.cur.isSome || !st.vals.isEmpty || st.expectVal then failSt st
    else { st with line := st.line + 1, pg := 0, needSep := false }
  else if ch = ',' then
    if st.cur.isSome || !st.vals.isEmpty || !st.needSep then failSt st
    else { st with needSep := false, expectVal := true }
  else
    match VLQ.b64Idx ch with
    | none => failSt st
    | some d =>
      if st.needSep then failSt st
      else if 32 ≤ d then
        match st.cur with
        | none => { st with cur := some (5, d - 32), expectVal := false }
        | some (sh, ac) => { st with cur := some (sh + 5, ac + (d - 32) * 2 ^ sh) }
      else
        match st.cur with
        | none => completeVal st (VLQ.fromVlqSigned d)
        | some (sh, ac) => completeVal st (VLQ.fromVlqSigned (ac + d * 2 ^ sh))

/-- Initial decoder state: all previous counters at zero. -/
def initSt : DecSt :=
  { ok := true, line := 0, pg := 0, pf := 0, pl := 0, pc := 0,
    cur := none, vals := [], needSep := false, expectVal := false, out := [] }

/-- Finish a decode: the stream must not end inside a VLQ group or an
unfinished entry. -/
def decodeFinal (st : DecSt) : Option (List DecodedEntry) :=
  if st.ok && st.cur.isNone && st.vals.isEmpty && !st.expectVal then
    some st.out.reverse
  else none

/-- Decode a mappings stream into the absolute entries it denotes. -/
def decodeMappings (s : List Char) : Option (List DecodedEntry) :=
  decodeFinal (s.foldl decodeStep initSt)

/-- Encoding of the four Base64-VLQ fields of one entry, in the order emitted
by `SourceMap::serialize_mappings`: generated column, source index, original
line, original column. -/
def entryEnc (dg df dl dc : Int) : List Char :=
  VLQ.encode dg ++ VLQ.encode df ++ VLQ.encode dl ++ VLQ.encode dc

/-- Separator emitted before a mapping, from `source_map.cpp` lines 87-96:
on the same generated line a `,` when `i > 0`; on a strictly larger generated
line as many `;` as the line advanced; a smaller generated line emits nothing. -/
def sepChunk (gl pgl : Nat) (nonfirst : Bool) : List Char :=
  if gl = pgl then (if nonfirst then [','] else [])
  else if pgl < gl then List.replicate (gl - pgl) ';'
  else []

/-- The `previous_generated_line` value after a mapping (only advanced when the
generated line grew, `source_map.cpp` line 91). -/
def nextPgl (gl pgl : Nat) : Nat :=
  if gl = pgl then pgl else if pgl < gl then gl else pgl

/-- The `previous_generated_column` base used for a mapping's column delta:
reset to 0 whenever the generated line changed (`source_map.cpp` line 88). -/
def pgcBase (gl pgl pgc : Nat) : Nat := if gl = pgl then pgc else 0

/-- Characters emitted for one mapping: separator followed by the four signed
deltas (`source_map.cpp` lines 87-109). -/
def mappingChunk (m : Mapping) (pgl pgc pol poc pof : Nat) (nonfirst : Bool) :
    List Char :=
  sepChunk m.generated.line pgl nonfirst ++
    entryEnc ((m.generated.column : Int) - (pgcBase m.generated.line pgl pgc : Int))
             ((m.original.file : Int) - (pof : Int))
             ((m.original.line : Int) - (pol : Int))
             ((m.original.column : Int) - (poc : Int))

/-- The loop of `SourceMap::serialize_mappings` (`source_map.cpp` lines 75-110)
with the five `previous_*` counters and the `i > 0` test made explicit
(`nonfirst`). -/
def serializeLoop : List Mapping → Nat → Nat → Nat → Nat → Nat → Bool → List Char
  | [], _, _, _, _, _, _ => []
  | m :: rest, pgl, pgc, pol, poc, pof, nonfirst =>
    mappingChunk m pgl pgc pol poc pof nonfirst ++
      serializeLoop rest (nextPgl m.generated.line pgl) m.generated.column
        m.original.line m.original.column m.original.file true

/-- `SourceMap::serialize_mappings` as a function of the mapping vector; the
result models the characters of the returned `std::string`. -/
def serialize_mappings (ms : List Mapping) : List Char :=
  serializeLoop ms 0 0 0 0 0 false

/-! Lemmas for the Base64-VLQ layer. -/

theorem b64Idx_b64Char : ∀ d : Fin 64, VLQ.b64Idx (VLQ.b64Char d.val) = some d.val := by
  decide

theorem b64Char_ne_semi : ∀ d : Fin 64, VLQ.b64Char d.val ≠ ';' := by decide

theorem b64Char_ne_comma : ∀ d : Fin 64, VLQ.b64Char d.val ≠ ',' := by decide

theorem fromVlqSigned_vlqSigned (v : Int) :
    VLQ.fromVlqSigned (VLQ.vlqSigned v) = v := by
  unfold VLQ.vlqSigned VLQ.fromVlqSigned
  split <;> split <;> omega

theorem vlqDigits_spec (n : Nat) :
    VLQ.vlqDigits n ≠ [] ∧ (∀ d ∈ VLQ.vlqDigits n, d < 32) ∧
      VLQ.digitsVal (VLQ.vlqDigits n) = n := by
  induction n using Nat.strong_induction_on with
  | _ n ih =>
    rw [VLQ.vlqDigits]
    split
    · refine ⟨by simp, ?_, by simp [VLQ.digitsVal]⟩
      intro d hd
      simp only [List.mem_singleton] at hd
      omega
    · have hlt : n / 32 < n := Nat.div_lt_self (by omega) (by omega)
      obtain ⟨h1, h2, h3⟩ := ih (n / 32) hlt
      refine ⟨by simp, ?_, ?_⟩
      · intro d hd
        rcases List.mem_cons.mp hd with rfl | hd
        · exact Nat.mod_lt _ (by omega)
        · exact h2 d hd
      · simp only [VLQ.digitsVal, h3]
        omega

/-! Lemmas driving the decoder over encoder output. -/

/-- The entry-flushing step ignores the partial-group and expect-value fields
of the state. -/
theorem completeVal_irrel (ok : Bool) (line : Nat) (pg pf pl pc : Int)
    (c1 c2 : Option (Nat × Nat)) (vals : List Int) (ns : Bool) (e1 e2 : Bool)
    (out : List DecodedEntry) (v : Int) :
    completeVal ⟨ok, line, pg, pf, pl, pc, c1, vals, ns, e1, out⟩ v =
      completeVal ⟨ok, line, pg, pf, pl, pc, c2, vals, ns, e2, out⟩ v := by
  rcases vals with _ | ⟨a, _ | ⟨a2, _ | ⟨a3, _ | ⟨a4, t⟩⟩⟩⟩ <;> rfl

theorem decodeStep_digit (st : DecSt) (d : Nat) (hd : d < 64)
    (hok : st.ok = true) (hns : st.needSep = false) :
    decodeStep st (VLQ.b64Char d) =
      if 32 ≤ d then
        match st.cur with
        | none => { st with cur := some (5, d - 32), expectVal := false }
        | some (sh, ac) => { st with cur := some (sh + 5, ac + (d - 32) * 2 ^ sh) }
      else
        match st.cur with
        | none => completeVal st (VLQ.fromVlqSigned d)
        | some (sh, ac) => completeVal st (VLQ.fromVlqSigned (ac + d * 2 ^ sh)) := by
  have h1 : VLQ.b64Char d ≠ ';' := b64Char_ne_semi ⟨d, hd⟩
  have h2 : VLQ.b64Char d ≠ ',' := b64Char_ne_comma ⟨d, hd⟩
  have h3 : VLQ.b64Idx (VLQ.b64Char d) = some d := b64Idx_b64Char ⟨d, hd⟩
  simp only [decodeStep, hok, h1, h2, h3, hns, Bool.true_eq_false, if_false,
    Bool.false_eq_true, ite_false]

theorem foldl_vlqChars :
    ∀ (ds : List Nat), ds ≠ [] → (∀ d ∈ ds, d < 32) →
    ∀ (st : DecSt) (sh ac : Nat), st.ok = true → st.needSep = false →
      st.cur = some (sh, ac) →
      List.foldl decodeStep st (VLQ.vlqChars ds) =
        completeVal st (VLQ.fromVlqSigned (ac + VLQ.digitsVal ds * 2 ^ sh)) := by
  intro ds
  induction ds with
  | nil => intro h; exact absurd rfl h
  | cons d ds ih =>
    intro _ hlt st sh ac hok hns hcur
    obtain ⟨ok, line, pg, pf, pl, pc, cur, vals, nsep, ev, out⟩ := st
    simp only at hok hns hcur
    subst hok hns hcur
    have hd32 : d < 32 := hlt d (by simp)
    cases ds with
    | nil =>
      simp only [VLQ.vlqChars, List.foldl_cons, List.foldl_nil]
      rw [decodeStep_digit _ d (by omega) rfl rfl]
      rw [if_neg (by omega)]
      simp only [VLQ.digitsVal]
      norm_num
    | cons e es =>
      have hne' : e :: es ≠ [] := by simp
      have hlt' : ∀ x ∈ e :: es, x < 32 := fun x hx => hlt x (List.mem_cons_of_mem _ hx)
      simp only [VLQ.vlqChars, List.foldl_cons]
      rw [decodeStep_digit _ (d + 32) (by omega) rfl rfl]
      rw [if_pos (by omega)]
      simp only
      rw [ih hne' hlt' _ (sh + 5) (ac + (d + 32 - 32) * 2 ^ sh) rfl rfl rfl]
      rw [completeVal_irrel]
      congr 1
      have h32 : d + 32 - 32 = d := by omega
      rw [h32]
      congr 1
      simp only [VLQ.digitsVal]
      rw [pow_add]
      ring

theorem foldl_encode (v : Int) (st : DecSt) (hok : st.ok = true)
    (hns : st.needSep = false) (hcur : st.cur = none) :
    List.foldl decodeStep st (VLQ.encode v) = completeVal st v := by
  obtain ⟨hne, hlt, hval⟩ := vlqDigits_spec (VLQ.vlqSigned v)
  obtain ⟨ok, line, pg, pf, pl, pc, cur, vals, nsep, ev, out⟩ := st
  simp only at hok hns hcur
  subst hok hns hcur
  unfold VLQ.encode
  rcases hdig : VLQ.vlqDigits (VLQ.vlqSigned v) with _ | ⟨d, ds⟩
  · exact absurd hdig hne
  · rw [hdig] at hlt hval
    have hd32 : d < 32 := hlt d (by simp)
    cases ds with
    | nil =>
      simp only [VLQ.vlqChars, List.foldl_cons, List.foldl_nil]
      rw [decodeStep_digit _ d (by omega) rfl rfl]
      rw [if_neg (by omega)]
      simp only [VLQ.digitsVal] at hval
      have hdv : d = VLQ.vlqSigned v := by omega
      rw [hdv, fromVlqSigned_vlqSigned]
    | cons e es =>
      simp only [VLQ.vlqChars, List.foldl_cons]
      rw [decodeStep_digit _ (d + 32) (by omega) rfl rfl]
      rw [if_pos (by omega)]
      simp only
      rw [foldl_vlqChars (e :: es) (by simp)
        (fun x hx => hlt x (List.mem_cons_of_mem _ hx)) _ 5 (d + 32 - 32) rfl rfl rfl]
      rw [completeVal_irrel]
      congr 1
      have h32 : d + 32 - 32 = d := by omega
      rw [h32]
      simp only [VLQ.digitsVal] at hval
      have : d + VLQ.digitsVal (e :: es) * 2 ^ 5 = VLQ.vlqSigned v := by
        rw [← hval]; simp only [VLQ.digitsVal]; ring
      rw [this, fromVlqSigned_vlqSigned]

theorem foldl_entryEnc (dg df dl dc : Int) (st : DecSt) (hok : st.ok = true)
    (hns : st.needSep = false) (hcur : st.cur = none) (hvals : st.vals = []) :
    List.foldl decodeStep st (entryEnc dg df dl dc) =
      { st with
        cur := none, vals := [], needSep := true, expectVal := false,
        pg := st.pg + dg, pf := st.pf + df, pl := st.pl + dl, pc := st.pc + dc,
        out := (st.line, (st.pg + dg).toNat, (st.pf + df).toNat,
                (st.pl + dl).toNat, (st.pc + dc).toNat) :: st.out } := by
  obtain ⟨ok, line, pg, pf, pl, pc, cur, vals, nsep, ev, out⟩ := st
  simp only at hok hns hcur hvals
  subst hok hns hcur hvals
  unfold entryEnc
  rw [List.foldl_append, List.foldl_append, List.foldl_append]
  rw [foldl_encode dg _ rfl rfl rfl]
  simp only [completeVal]
  rw [foldl_encode df _ rfl rfl rfl]
  simp only [completeVal, List.cons_append, List.nil_append]
  rw [foldl_encode dl _ rfl rfl rfl]
  simp only [completeVal, List.cons_append, List.nil_append]
  rw [foldl_encode dc _ rfl rfl rfl]
  simp only [completeVal]

/-- Decoder state at an encoder iteration boundary: the five previous
counters, the `i > 0` flag and the reversed output so far. -/
def encSt (pgl pgc pol poc pof : Nat) (b : Bool) (acc : List DecodedEntry) : DecSt :=
  { ok := true, line := pgl, pg := (pgc : Int), pf := (pof : Int),
    pl := (pol : Int), pc := (poc : Int),
    cur := none, vals := [], needSep := b, expectVal := false, out := acc }

theorem foldl_semis (k pgl pgc pol poc pof : Nat) (b : Bool)
    (acc : List DecodedEntry) :
    List.foldl decodeStep (encSt pgl pgc pol poc pof b acc) (List.replicate k ';') =
      if k = 0 then encSt pgl pgc pol poc pof b acc
      else encSt (pgl + k) 0 pol poc pof false acc := by
  induction k generalizing pgl pgc b with
  | zero => simp
  | succ k ih =>
    rw [List.replicate_succ, List.foldl_cons]
    have h1 : decodeStep (encSt pgl pgc pol poc pof b acc) ';' =
        encSt (pgl + 1) 0 pol poc pof false acc := by
      simp [decodeStep, encSt]
    rw [h1, ih]
    rcases Nat.eq_zero_or_pos k with rfl | hk
    · simp [encSt]
    · rw [if_neg (by omega), if_neg (by omega)]
      have : pgl + 1 + k = pgl + (k + 1) := by omega
      rw [this]

theorem foldl_mappingChunk (m : Mapping) (pgl pgc pol poc pof : Nat) (b : Bool)
    (acc : List DecodedEntry) (hle : pgl ≤ m.generated.line) :
    List.foldl decodeStep (encSt pgl pgc pol poc pof b acc)
        (mappingChunk m pgl pgc pol poc pof b) =
      encSt m.generated.line m.generated.column m.original.line
        m.original.column m.original.file true (mappingTriple m :: acc) := by
  unfold mappingChunk
  rw [List.foldl_append]
  by_cases hgl : m.generated.line = pgl
  · have hsep : sepChunk m.generated.line pgl b = if b then [','] else [] := by
      simp [sepChunk, hgl]
    have hbase : pgcBase m.generated.line pgl pgc = pgc := by simp [pgcBase, hgl]
    rw [hsep, hbase]
    have hafter :
        List.foldl decodeStep (encSt pgl pgc pol poc pof b acc)
            (if b then [','] else []) =
          { encSt pgl pgc pol poc pof false acc with expectVal := b } := by
      cases b
      · rfl
      · simp only [if_pos trivial, List.foldl_cons, List.foldl_nil]
        simp [decodeStep, encSt]
    rw [hafter]
    rw [foldl_entryEnc _ _ _ _ _ rfl rfl rfl rfl]
    simp only [encSt, mappingTriple, hgl]
    congr 1 <;> try omega
    have e1 : (pgc : Int) + ((m.generated.column : Int) - (pgc : Int)) =
        (m.generated.column : Int) := by omega
    have e2 : (pof : Int) + ((m.original.file : Int) - (pof : Int)) =
        (m.original.file : Int) := by omega
    have e3 : (pol : Int) + ((m.original.line : Int) - (pol : Int)) =
        (m.original.line : Int) := by omega
    have e4 : (poc : Int) + ((m.original.column : Int) - (poc : Int)) =
        (m.original.column : Int) := by omega
    simp [e1, e2, e3, e4]
  · have hlt : pgl < m.generated.line := by omega
    have hsep : sepChunk m.generated.line pgl b =
        List.replicate (m.generated.line - pgl) ';' := by
      simp [sepChunk, hgl, hlt]
    have hbase : pgcBase m.generated.line pgl pgc = 0 := by simp [pgcBase, hgl]
    rw [hsep, hbase, foldl_semis]
    rw [if_neg (by omega)]
    have hadd : pgl + (m.generated.line - pgl) = m.generated.line := by omega
    rw [hadd]
    rw [foldl_entryEnc _ _ _ _ _ rfl rfl rfl rfl]
    simp only [encSt, mappingTriple]
    have e1 : ((0 : Nat) : Int) + ((m.generated.column : Int) - ((0 : Nat) : Int)) =
        (m.generated.column : Int) := by omega
    have e2 : (pof : Int) + ((m.original.file : Int) - (pof : Int)) =
        (m.original.file : Int) := by omega
    have e3 : (pol : Int) + ((m.original.line : Int) - (pol : Int)) =
        (m.original.line : Int) := by omega
    have e4 : (poc : Int) + ((m.original.column : Int) - (poc : Int)) =
        (m.original.column : Int) := by omega
    simp [e1, e2, e3, e4]

theorem nextPgl_of_le (gl pgl : Nat) (h : pgl ≤ gl) : nextPgl gl pgl = gl := by
  unfold nextPgl
  split
  · omega
  · rw [if_pos (by omega)]

theorem foldl_serializeLoop :
    ∀ (ms : List Mapping) (pgl pgc pol poc pof : Nat) (b : Bool)
      (acc : List DecodedEntry),
      List.Chain' (· ≤ ·) (pgl :: ms.map fun m => m.generated.line) →
      ∃ pgl2 pgc2 pol2 poc2 pof2 b2,
        List.foldl decodeStep (encSt pgl pgc pol poc pof b acc)
            (serializeLoop ms pgl pgc pol poc pof b) =
          encSt pgl2 pgc2 pol2 poc2 pof2 b2
            ((ms.map mappingTriple).reverse ++ acc) := by
  intro ms
  induction ms with
  | nil =>
    intro pgl pgc pol poc pof b acc _
    exact ⟨pgl, pgc, pol, poc, pof, b, by simp [serializeLoop]⟩
  | cons m rest ih =>
    intro pgl pgc pol poc pof b acc hch
    rw [List.map_cons, List.chain'_cons] at hch
    obtain ⟨hle, hch'⟩ := hch
    rw [serializeLoop, List.foldl_append]
    rw [foldl_mappingChunk m pgl pgc pol poc pof b acc hle]
    rw [nextPgl_of_le _ _ hle]
    obtain ⟨p1, p2, p3, p4, p5, b2, heq⟩ :=
      ih m.generated.line m.generated.column m.original.line m.original.column
        m.original.file true (mappingTriple m :: acc) hch'
    refine ⟨p1, p2, p3, p4, p5, b2, ?_⟩
    rw [heq]
    simp

/-- C1 (claim theorem): serializing any mapping sequence whose generated lines
are nondecreasing — which is the case for every sequence appended through the
builder, since `current_position` only advances — yields a `mappings` string
grouped per generated line by `;` and within a line by `,`, each entry being
the four Base64-VLQ signed deltas (generated column, source index, original
line, original column, with the previous generated column resetting at a line
change and the other counters persisting), and decoding that string recovers
exactly the appended `(generated, source_index, original)` triples in order.
The decoder `decodeMappings` accepts only strings of that grouped shape. -/
theorem serialize_mappings_roundtrip (ms : List Mapping)
    (h : List.Chain' (· ≤ ·) (ms.map fun m => m.generated.line)) :
    decodeMappings (serialize_mappings ms) = some (ms.map mappingTriple) := by
  have h0 : List.Chain' (· ≤ ·) (0 :: ms.map fun m => m.generated.line) :=
    h.cons' (fun y _ => Nat.zero_le y)
  obtain ⟨p1, p2, p3, p4, p5, b2, heq⟩ :=
    foldl_serializeLoop ms 0 0 0 0 0 false [] h0
  have hinit : initSt = encSt 0 0 0 0 0 false [] := by simp [initSt, encSt]
  unfold decodeMappings serialize_mappings
  rw [hinit, heq]
  simp [decodeFinal, encSt]

/-- Concrete instance of the C1 theorem: a three-mapping stream crossing two
generated lines round-trips. -/
theorem serialize_mappings_roundtrip_witness :
    List.Chain' (· ≤ ·)
        (([⟨⟨0, 0, 0⟩, ⟨0, 0, 0⟩⟩, ⟨⟨0, 0, 8⟩, ⟨0, 0, 2⟩⟩,
           ⟨⟨0, 1, 4⟩, ⟨0, 2, 0⟩⟩] : List Mapping).map fun m => m.generated.line) ∧
      decodeMappings (serialize_mappings
          [⟨⟨0, 0, 0⟩, ⟨0, 0, 0⟩⟩, ⟨⟨0, 0, 8⟩, ⟨0, 0, 2⟩⟩, ⟨⟨0, 1, 4⟩, ⟨0, 2, 0⟩⟩]) =
        some ([⟨⟨0, 0, 0⟩, ⟨0, 0, 0⟩⟩, ⟨⟨0, 0, 8⟩, ⟨0, 0, 2⟩⟩,
               ⟨⟨0, 1, 4⟩, ⟨0, 2, 0⟩⟩].map mappingTriple) :=
  ⟨by simp, serialize_mappings_roundtrip _ (by simp)⟩

/-! The source-map builder state and `SourceMap::prepend`
(`source_map.cpp` lines 115-155). -/

/-- The mutable state of `SourceMap`: the mapping vector and the advancing
output cursor. -/
structure SourceMap where
  mappings : List Mapping
  current_position : Position
deriving Repr, DecidableEq

/-- An output buffer: emitted text together with the source map produced while
emitting it.  Only the text's offset is consumed by `prepend` (via
`Offset(out.buffer)`, whose text scan lives in `position.cpp`, not under
`src/`), so the offset is carried directly. -/
structure OutputBuffer where
  bufOffset : Offset
  smap : SourceMap
deriving Repr, DecidableEq

/-- The generated-position shift of `SourceMap::prepend(const Offset&)`
(`source_map.cpp` lines 142-154): positions on generated line 0 gain the
column delta, every position gains the line delta. -/
def shiftByOffset (off : Offset) (p : Position) : Position :=
  { p with
    column := if p.line = 0 then p.column + off.column else p.column,
    line := p.line + off.line }

/-- `SourceMap::prepend(const Offset&)` (`source_map.cpp` lines 139-155):
shift the existing mappings (guarded by a non-zero offset, as in the source)
and the current position. -/
def SourceMap.prependOffset (sm : SourceMap) (off : Offset) : SourceMap :=
  { mappings :=
      if off.line ≠ 0 ∨ off.column ≠ 0 then
        sm.mappings.map fun m => { m with generated := shiftByOffset off m.generated }
      else sm.mappings,
    current_position := shiftByOffset off sm.current_position }

/-- The validity check of `SourceMap::prepend(const OutputBuffer&)`
(`source_map.cpp` lines 119-126): a mapping is illegal when its generated
position lies beyond the incoming buffer's size (its own
`current_position`). -/
def mappingExceeds (m : Mapping) (p : Position) : Bool :=
  p.line < m.generated.line ||
    (m.generated.line == p.line && p.column < m.generated.column)

/-- `SourceMap::prepend(const OutputBuffer&)` (`source_map.cpp` lines
115-132): validate all incoming mappings first (a `throw` leaves the map
untouched, modelled by `none`), then shift the existing mappings by the
buffer's text offset and unshift the buffer's own mappings onto the front
(`VECTOR_UNSHIFT`). -/
def SourceMap.prepend (sm : SourceMap) (out : OutputBuffer) : Option SourceMap :=
  if out.smap.mappings.any (fun m => mappingExceeds m out.smap.current_position) then
    none
  else
    some { mappings := out.smap.mappings ++ (sm.prependOffset out.bufOffset).mappings,
           current_position := (sm.prependOffset out.bufOffset).current_position }

theorem shiftByOffset_zero (p : Position) : shiftByOffset ⟨0, 0⟩ p = p := by
  cases p
  simp [shiftByOffset]

/-- C5 (claim theorem): `prepend(buffer)` fails — with no partial update —
exactly when some mapping of the incoming buffer exceeds that buffer's size,
and on success it adds the buffer's line delta to every existing mapping's
generated line, adds the column delta only to mappings on generated line 0,
and unshifts the buffer's own mappings onto the front of the vector. -/
theorem sourceMap_prepend_spec (sm : SourceMap) (out : OutputBuffer) :
    (sm.prepend out = none ↔ ∃ m ∈ out.smap.mappings,
        out.smap.current_position.line < m.generated.line ∨
          (m.generated.line = out.smap.current_position.line ∧
            out.smap.current_position.column < m.generated.column)) ∧
    ((∀ m ∈ out.smap.mappings,
        ¬(out.smap.current_position.line < m.generated.line ∨
          (m.generated.line = out.smap.current_position.line ∧
            out.smap.current_position.column < m.generated.column))) →
      sm.prepend out = some
        { mappings := out.smap.mappings ++ sm.mappings.map fun m =>
            { m with generated :=
              { m.generated with
                column := if m.generated.line = 0 then
                    m.generated.column + out.bufOffset.column
                  else m.generated.column,
                line := m.generated.line + out.bufOffset.line } },
          current_position := shiftByOffset out.bufOffset sm.current_position }) := by
  have hexc : ∀ m : Mapping,
      mappingExceeds m out.smap.current_position = true ↔
        (out.smap.current_position.line < m.generated.line ∨
          (m.generated.line = out.smap.current_position.line ∧
            out.smap.current_position.column < m.generated.column)) := by
    intro m
    simp [mappingExceeds]
  constructor
  · by_cases h : out.smap.mappings.any
        (fun m => mappingExceeds m out.smap.current_position) = true
    · rw [List.any_eq_true] at h
      obtain ⟨m, hm, hx⟩ := h
      simp only [SourceMap.prepend, List.any_eq_true]
      rw [if_pos ⟨m, hm, hx⟩]
      simp only [true_iff]
      exact ⟨m, hm, (hexc m).mp hx⟩
    · simp only [SourceMap.prepend]
      rw [if_neg h]
      simp only [List.any_eq_true] at h
      push_neg at h
      constructor
      · intro hcontr; exact absurd hcontr (by simp)
      · intro ⟨m, hm, hx⟩
        exact absurd ((hexc m).mpr hx) (by simpa using h m hm)
  · intro hall
    have hany : out.smap.mappings.any
        (fun m => mappingExceeds m out.smap.current_position) = false := by
      rw [List.any_eq_false]
      intro m hm
      have hfalse : mappingExceeds m out.smap.current_position = false :=
        Bool.eq_false_iff.mpr (fun hx => hall m hm ((hexc m).mp hx))
      rw [hfalse]
      simp
    simp only [SourceMap.prepend, hany, Bool.false_eq_true, if_false, if_neg]
    congr 1
    have hmap : (sm.prependOffset out.bufOffset).mappings =
        sm.mappings.map fun m =>
          { m with generated :=
            { m.generated with
              column := if m.generated.line = 0 then
                  m.generated.column + out.bufOffset.column
                else m.generated.column,
              line := m.generated.line + out.bufOffset.line } } := by
      simp only [SourceMap.prependOffset]
      split
      · rfl
      · rename_i hz
        push_neg at hz
        obtain ⟨h1, h2⟩ := hz
        conv_lhs => rw [← List.map_id sm.mappings]
        apply List.map_congr_left
        intro m _
        cases m with
        | mk o g =>
          cases g
          simp [h1, h2]
    rw [hmap]
    rfl

/-! Selector model (`src/ast.hpp` lines 1679-2220). -/

/-- Combinators of `Complex_Selector` (`ast.hpp` line 2044). -/
inductive Combinator where
  | ancestorOf
  | parentOf
  | precedes
  | adjacentTo
  | reference
deriving Repr, DecidableEq

mutual
/-- Simple selectors (`ast.hpp` lines 1724-1950): parent reference,
placeholder, type, qualifier (class/id), attribute, pseudo, wrapped. -/
inductive Simple_Selector where
  | parent
  | placeholder (name : String)
  | typeSel (name : String)
  | qualifier (name : String)
  | attribute (name matcher : String) (value : Option String)
  | pseudo (name : String) (expr : Option String)
  | wrapped (name : String) (inner : Option Selector_List)

/-- Compound selectors: ordered sequences of simple selectors
(`ast.hpp` line 1961). -/
inductive Compound_Selector where
  | mk (elements : List Simple_Selector)

/-- Complex selectors: linked chains `(combinator, head, tail)`
(`ast.hpp` line 2042); head and tail pointers may be null. -/
inductive Complex_Selector where
  | mk (combinator : Combinator) (head : Option Compound_Selector)
      (tail : Option Complex_Selector)

/-- Comma-separated selector lists (`ast.hpp` line 2173). -/
inductive Selector_List where
  | mk (elements : List Complex_Selector)
end

def Compound_Selector.elements : Compound_Selector → List Simple_Selector
  | .mk es => es

def Selector_List.elements : Selector_List → List Complex_Selector
  | .mk es => es

namespace Constants

/-- Modelled from the spec: the specificity constants live in
`constants.cpp`, which is not under `src/`.  The spec's table (§3.4) uses the
standard CSS levels — universal 0, then type, then class (attribute and
pseudo-class at class level), then id — so the levels are given distinct
numeric weights in that order. -/
def Specificity_Universal : Nat := 0

/-- Modelled from the spec: type-level specificity weight. -/
def Specificity_Type : Nat := 1

/-- Modelled from the spec: class-level specificity weight. -/
def Specificity_Class : Nat := 1000

/-- Modelled from the spec: attribute selectors weigh like classes. -/
def Specificity_Attr : Nat := 1000

/-- Modelled from the spec: pseudo-classes weigh like classes. -/
def Specificity_Pseudo : Nat := 1000

/-- Modelled from the spec: id-level specificity weight. -/
def Specificity_ID : Nat := 1000000

end Constants

/-- `is_pseudo_class_element` (`ast.hpp` lines 1885-1891): the four legacy
single-colon pseudo-elements. -/
def is_pseudo_class_element (n : String) : Bool :=
  n = ":before" || n = ":after" || n = ":first-line" || n = ":first-letter"

/-- `Pseudo_Selector::is_pseudo_element` (`ast.hpp` lines 1916-1920): a
double-colon name, or one of the legacy pseudo-elements.  C++ indexing past a
short string reads the null terminator, which the pattern match reproduces. -/
def isPseudoElement (n : String) : Bool :=
  (match n.data with
   | ':' :: ':' :: _ => true
   | _ => false) || is_pseudo_class_element n

mutual
/-- Virtual `specificity()` dispatch for simple selectors.  `Parent_Selector`
returns 0 (line 1803); `Selector_Placeholder` has no override, so it inherits
the base `Selector::specificity` returning `Specificity_Universal`
(lines 1701-1703, 1815-1822); `Type_Selector` (line 1832), `Selector_Qualifier`
(line 1851, dispatching on the first character of the name, an empty name
reading the null terminator), `Attribute_Selector` (line 1871),
`Pseudo_Selector` (line 1921) and `Wrapped_Selector` (line 1943, null inner
selector giving 0) as in the source. -/
def Simple_Selector.specificity : Simple_Selector → Nat
  | .parent => 0
  | .placeholder _ => Constants.Specificity_Universal
  | .typeSel n =>
    if n = "*" then Constants.Specificity_Universal else Constants.Specificity_Type
  | .qualifier n =>
    match n.data with
    | '#' :: _ => Constants.Specificity_ID
    | '.' :: _ => Constants.Specificity_Class
    | _ => Constants.Specificity_Type
  | .attribute _ _ _ => Constants.Specificity_Attr
  | .pseudo n _ =>
    if isPseudoElement n then Constants.Specificity_Type
    else Constants.Specificity_Pseudo
  | .wrapped _ none => 0
  | .wrapped _ (some l) => Selector_List.specificity l

/-- `Compound_Selector::specificity` (`ast.hpp` lines 2008-2014): sum over
the simple selectors. -/
def Compound_Selector.specificity : Compound_Selector → Nat
  | .mk es => simpleSpecSum es

/-- The summation loop of `Compound_Selector::specificity`. -/
def simpleSpecSum : List Simple_Selector → Nat
  | [] => 0
  | s :: rest => Simple_Selector.specificity s + simpleSpecSum rest

/-- `Complex_Selector::specificity` (`ast.hpp` lines 2103-2109): head plus
tail, null pointers contributing nothing. -/
def Complex_Selector.specificity : Complex_Selector → Nat
  | .mk _ h t =>
    (match h with
     | none => 0
     | some c => Compound_Selector.specificity c) +
    (match t with
     | none => 0
     | some c => Complex_Selector.specificity c)

/-- `Selector_List::specificity` (`ast.hpp` lines 2196-2206): running maximum
over the alternatives, starting from 0. -/
def Selector_List.specificity : Selector_List → Nat
  | .mk es => complexSpecMax es 0

/-- The maximum loop of `Selector_List::specificity`:
`if (sum < specificity) sum = specificity`. -/
def complexSpecMax : List Complex_Selector → Nat → Nat
  | [], sum => sum
  | c :: rest, sum =>
    complexSpecMax rest
      (if sum < Complex_Selector.specificity c then Complex_Selector.specificity c
       else sum)
end

/-- The `has_placeholder` flag of a simple selector: only the
`Selector_Placeholder` constructor sets it (`ast.hpp` line 1819). -/
def Simple_Selector.has_placeholder : Simple_Selector → Bool
  | .placeholder _ => true
  | _ => false

/-- The `has_placeholder` flag of a compound selector, accumulated by
`Compound_Selector::adjust_after_pushing` over the pushed simple selectors
(`ast.hpp` lines 1966-1970). -/
def Compound_Selector.has_placeholder : Compound_Selector → Bool
  | .mk es => es.any Simple_Selector.has_placeholder

/-- The `has_placeholder` flag of a complex selector, set by the constructor
from head and tail (`ast.hpp` line 2063). -/
def Complex_Selector.has_placeholder : Complex_Selector → Bool
  | .mk _ h t =>
    (match h with
     | none => false
     | some c => c.has_placeholder) ||
    (match t with
     | none => false
     | some c => Complex_Selector.has_placeholder c)

/-- A ruleset, reduced to the field `is_invisible` inspects: its selector,
which `Ruleset::is_invisible` casts to a `Selector_List`
(`ast.hpp` line 2216). -/
structure Ruleset where
  selector : Selector_List

/-- `Ruleset::is_invisible` (`ast.hpp` lines 2214-2220): conjunction of
`has_placeholder()` over the selector alternatives. -/
def Ruleset.is_invisible (r : Ruleset) : Bool :=
  r.selector.elements.all Complex_Selector.has_placeholder

/-- Following the spec's words for C3: a "placeholder-only" selector, made
entirely of placeholder simples (every simple in every compound of the chain
is a placeholder). -/
def Complex_Selector.entirely_placeholder : Complex_Selector → Bool
  | .mk _ h t =>
    (match h with
     | none => true
     | some c => c.elements.all Simple_Selector.has_placeholder) &&
    (match t with
     | none => true
     | some c => Complex_Selector.entirely_placeholder c)

/-- C2 (counterexample): the claim's "Placeholder = class" fails —
`Selector_Placeholder` does not override `specificity()`, so a placeholder
selector reports the base `Specificity_Universal`, which is not the class
weight. -/
theorem placeholder_specificity_counterexample :
    (Simple_Selector.placeholder "%foo").specificity ≠ Constants.Specificity_Class := by
  simp [Simple_Selector.specificity, Constants.Specificity_Universal,
    Constants.Specificity_Class]

/-- C2 (amended claim theorem): the specificity of every simple-selector kind
of the claim, with the placeholder entry corrected to the inherited base
default `Specificity_Universal` (= 0): `Parent` = 0; `Placeholder` = the base
default; `Type` = type with the universal selector `*` = 0; `Qualifier`
with name starting `#` = id, starting `.` = class, else type; `Pseudo` = type
when it is a pseudo-element, else pseudo-class. -/
theorem simple_specificity_table :
    Simple_Selector.parent.specificity = 0
    ∧ (∀ n, (Simple_Selector.placeholder n).specificity =
        Constants.Specificity_Universal)
    ∧ (Simple_Selector.typeSel "*").specificity = 0
    ∧ (∀ n, n ≠ "*" →
        (Simple_Selector.typeSel n).specificity = Constants.Specificity_Type)
    ∧ (∀ n rest, n.data = '#' :: rest →
        (Simple_Selector.qualifier n).specificity = Constants.Specificity_ID)
    ∧ (∀ n rest, n.data = '.' :: rest →
        (Simple_Selector.qualifier n).specificity = Constants.Specificity_Class)
    ∧ (∀ n, (∀ rest, n.data ≠ '#' :: rest) → (∀ rest, n.data ≠ '.' :: rest) →
        (Simple_Selector.qualifier n).specificity = Constants.Specificity_Type)
    ∧ (∀ n e, isPseudoElement n = true →
        (Simple_Selector.pseudo n e).specificity = Constants.Specificity_Type)
    ∧ (∀ n e, isPseudoElement n = false →
        (Simple_Selector.pseudo n e).specificity = Constants.Specificity_Pseudo) := by
  refine ⟨rfl, fun n => rfl, ?_, ?_, ?_, ?_, ?_, ?_, ?_⟩
  · simp [Simple_Selector.specificity, Constants.Specificity_Universal]
  · intro n hn
    simp [Simple_Selector.specificity, hn]
  · intro n rest hn
    simp [Simple_Selector.specificity, hn]
  · intro n rest hn
    simp [Simple_Selector.specificity, hn]
  · intro n h1 h2
    simp only [Simple_Selector.specificity]
  · intro n e hn
    simp [Simple_Selector.specificity, hn]
  · intro n e hn
    simp [Simple_Selector.specificity, hn]

/-- C2 (witness): concrete instances of each hypothesis-bearing clause of the
amended table. -/
theorem simple_specificity_table_witness :
    ("div" : String) ≠ "*"
    ∧ (Simple_Selector.typeSel "div").specificity = Constants.Specificity_Type
    ∧ (Simple_Selector.qualifier "#main").specificity = Constants.Specificity_ID
    ∧ (Simple_Selector.qualifier ".box").specificity = Constants.Specificity_Class
    ∧ (Simple_Selector.pseudo "::after" none).specificity =
        Constants.Specificity_Type
    ∧ (Simple_Selector.pseudo ":hover" none).specificity =
        Constants.Specificity_Pseudo :=
  ⟨by decide,
   (simple_specificity_table.2.2.2.1 "div" (by decide)),
   (simple_specificity_table.2.2.2.2.1 "#main" "main".data rfl),
   (simple_specificity_table.2.2.2.2.2.1 ".box" "box".data rfl),
   (simple_specificity_table.2.2.2.2.2.2.2.1 "::after" none (by decide)),
   (simple_specificity_table.2.2.2.2.2.2.2.2 ":hover" none (by decide))⟩

/-- C3 (counterexample): a ruleset whose single alternative is `.x%p` — it
contains a placeholder but is not made entirely of placeholder simples — is
reported invisible by `Ruleset::is_invisible`, refuting the claimed
equivalence with "every alternative is placeholder-only". -/
theorem ruleset_is_invisible_counterexample :
    ¬ ((Ruleset.mk (Selector_List.mk
          [Complex_Selector.mk .ancestorOf
            (some (Compound_Selector.mk
              [.qualifier ".x", .placeholder "%p"])) none])).is_invisible = true ↔
        ∀ c ∈ (Selector_List.mk
          [Complex_Selector.mk .ancestorOf
            (some (Compound_Selector.mk
              [.qualifier ".x", .placeholder "%p"])) none]).elements,
          c.entirely_placeholder = true) := by
  decide

/-- C3 (amended claim theorem): `Ruleset::is_invisible` is true iff every
selector alternative in the list *contains* a placeholder simple (its
`has_placeholder` flag), not necessarily consisting only of placeholders. -/
theorem ruleset_is_invisible_iff (r : Ruleset) :
    r.is_invisible = true ↔
      ∀ c ∈ r.selector.elements, c.has_placeholder = true := by
  simp [Ruleset.is_invisible, List.all_eq_true]

theorem ite_lt_eq_max (a s : Nat) : (if a < s then s else a) = max a s := by
  split <;> omega

theorem complexSpecMax_eq (l : List Complex_Selector) :
    ∀ a, complexSpecMax l a =
      max a ((l.map Complex_Selector.specificity).foldr max 0) := by
  induction l with
  | nil => intro a; simp [complexSpecMax]
  | cons c r ih =>
    intro a
    simp only [complexSpecMax, List.map_cons, List.foldr_cons]
    rw [ih, ite_lt_eq_max]
    omega

theorem simpleSpecSum_eq (es : List Simple_Selector) :
    simpleSpecSum es = (es.map Simple_Selector.specificity).sum := by
  induction es with
  | nil => simp [simpleSpecSum]
  | cons s r ih => simp [simpleSpecSum, ih]

/-- C8 (claim theorem): the specificity homomorphism — a selector list's
specificity is the maximum of its alternatives' specificities (0 for an empty
list), a complex selector's specificity is head plus tail, and a compound's
specificity is the sum of its simples' specificities. -/
theorem specificity_homomorphism :
    (∀ l : List Complex_Selector,
        (Selector_List.mk l).specificity =
          (l.map Complex_Selector.specificity).foldr max 0)
    ∧ (∀ (comb : Combinator) (h : Compound_Selector) (t : Complex_Selector),
        (Complex_Selector.mk comb (some h) (some t)).specificity =
          h.specificity + t.specificity)
    ∧ (∀ es : List Simple_Selector,
        (Compound_Selector.mk es).specificity =
          (es.map Simple_Selector.specificity).sum) := by
  refine ⟨?_, ?_, ?_⟩
  · intro l
    simp only [Selector_List.specificity]
    rw [complexSpecMax_eq]
    omega
  · intro comb h t
    simp [Complex_Selector.specificity]
  · intro es
    simp only [Compound_Selector.specificity]
    exact simpleSpecSum_eq es

/-- Concrete instance of the C5 theorem: a buffer spanning one line and two
columns prepends successfully, shifting line-0 mappings by the column delta
and every mapping by the line delta. -/
theorem sourceMap_prepend_spec_witness :
    (∀ m ∈ (OutputBuffer.mk ⟨1, 2⟩
        ⟨[⟨⟨0, 0, 0⟩, ⟨0, 0, 0⟩⟩], ⟨0, 1, 0⟩⟩).smap.mappings,
      ¬((OutputBuffer.mk ⟨1, 2⟩
            ⟨[⟨⟨0, 0, 0⟩, ⟨0, 0, 0⟩⟩], ⟨0, 1, 0⟩⟩).smap.current_position.line <
          m.generated.line ∨
        (m.generated.line = (OutputBuffer.mk ⟨1, 2⟩
            ⟨[⟨⟨0, 0, 0⟩, ⟨0, 0, 0⟩⟩], ⟨0, 1, 0⟩⟩).smap.current_position.line ∧
          (OutputBuffer.mk ⟨1, 2⟩
            ⟨[⟨⟨0, 0, 0⟩, ⟨0, 0, 0⟩⟩], ⟨0, 1, 0⟩⟩).smap.current_position.column <
            m.generated.column))) ∧
    (SourceMap.mk [⟨⟨0, 3, 1⟩, ⟨0, 0, 4⟩⟩, ⟨⟨0, 5, 0⟩, ⟨0, 2, 1⟩⟩] ⟨0, 3, 0⟩).prepend
        (OutputBuffer.mk ⟨1, 2⟩ ⟨[⟨⟨0, 0, 0⟩, ⟨0, 0, 0⟩⟩], ⟨0, 1, 0⟩⟩) =
      some ⟨[⟨⟨0, 0, 0⟩, ⟨0, 0, 0⟩⟩, ⟨⟨0, 3, 1⟩, ⟨0, 1, 6⟩⟩, ⟨⟨0, 5, 0⟩, ⟨0, 3, 1⟩⟩],
            ⟨0, 4, 0⟩⟩ :=
  ⟨by decide,
   ((sourceMap_prepend_spec
        (SourceMap.mk [⟨⟨0, 3, 1⟩, ⟨0, 0, 4⟩⟩, ⟨⟨0, 5, 0⟩, ⟨0, 2, 1⟩⟩] ⟨0, 3, 0⟩)
        (OutputBuffer.mk ⟨1, 2⟩ ⟨[⟨⟨0, 0, 0⟩, ⟨0, 0, 0⟩⟩], ⟨0, 1, 0⟩⟩)).2
      (by decide)).trans (by decide)⟩

/-! The selector-tree `Node` used by the extend engine and
`Node::naiveTrim` (`src/node.cpp`). -/

/-- Node kinds from `node.cpp`: combinator, selector, collection, nil. -/
inductive Node where
  | combinator (c : Combinator)
  | selector (s : Complex_Selector)
  | collection (children : List Node)
  | nil

/-- Modelled from the spec: `Complex_Selector_Pointer_Compare`, the strict
weak order of the `SourcesSet`, is declared at `ast.hpp` line 1952 but defined
in `ast.cpp`, which is not under `src/`; it is taken as a parameter `lt`.
`std::set::find` treats `x` and `s` as the same element exactly when neither
precedes the other. -/
def equivB (lt : Complex_Selector → Complex_Selector → Bool)
    (a b : Complex_Selector) : Bool :=
  !lt a b && !lt b a

/-- The `sel_set.find(...) != sel_set.end()` membership test of
`Node::naiveTrim`, with the set contents carried as a list. -/
def inSet (lt : Complex_Selector → Complex_Selector → Bool)
    (s : Complex_Selector) (l : List Complex_Selector) : Bool :=
  l.any fun x => equivB lt x s

/-- The back-to-front loop of `Node::naiveTrim` (`node.cpp` lines 293-304):
walk the reversed collection, skip selectors already found in the
`SourcesSet sel_set`, insert newly seen selectors, and push every other node
blindly onto `res`. -/
def naiveTrimLoop (lt : Complex_Selector → Complex_Selector → Bool) :
    List Node → List Complex_Selector → List Node → List Node
  | [], _, res => res
  | Node.selector s :: rest, selSet, res =>
    if inSet lt s selSet then naiveTrimLoop lt rest selSet res
    else naiveTrimLoop lt rest (s :: selSet) (res ++ [Node.selector s])
  | n :: rest, selSet, res => naiveTrimLoop lt rest selSet (res ++ [n])

/-- `Node::naiveTrim` (`node.cpp` lines 285-312) on a collection's children:
run the back-to-front loop, then emit `res` reversed (the final loop walks
`res` from `res.size() - 1` down to 0). -/
def naiveTrim (lt : Complex_Selector → Complex_Selector → Bool)
    (alts : List Node) : List Node :=
  (naiveTrimLoop lt alts.reverse [] []).reverse

/-- The selectors of a node list, in order. -/
def selsOf : List Node → List Complex_Selector
  | [] => []
  | Node.selector s :: rest => s :: selsOf rest
  | _ :: rest => selsOf rest

/-- Forward-direction restatement of naive-trim, in the claim's terms: a
selector alternative is skipped exactly when an equivalent selector occurs
later in the collection (such a later occurrence is what the back-to-front
walk has already kept); every other entry is kept in its original relative
order. -/
def trimSpecA (lt : Complex_Selector → Complex_Selector → Bool) :
    List Node → List Complex_Selector → List Node
  | [], _ => []
  | Node.selector s :: rest, seen =>
    if inSet lt s (selsOf rest) || inSet lt s seen then trimSpecA lt rest seen
    else Node.selector s :: trimSpecA lt rest seen
  | n :: rest, seen => n :: trimSpecA lt rest seen

/-- The specification of naive-trim: `trimSpecA` with no outer context. -/
def trimSpec (lt : Complex_Selector → Complex_Selector → Bool)
    (alts : List Node) : List Node :=
  trimSpecA lt alts []

theorem equivB_symm (lt : Complex_Selector → Complex_Selector → Bool)
    (a b : Complex_Selector) (h : equivB lt a b = true) : equivB lt b a = true := by
  simp only [equivB, Bool.and_eq_true, Bool.not_eq_true'] at *
  exact ⟨h.2, h.1⟩

theorem selsOf_append (l1 l2 : List Node) :
    selsOf (l1 ++ l2) = selsOf l1 ++ selsOf l2 := by
  induction l1 with
  | nil => simp [selsOf]
  | cons n r ih => cases n <;> simp [selsOf, ih]

theorem mem_selsOf (x : Complex_Selector) (l : List Node) :
    x ∈ selsOf l ↔ Node.selector x ∈ l := by
  induction l with
  | nil => simp [selsOf]
  | cons n r ih => cases n <;> simp [selsOf, ih]

theorem inSet_append (lt : Complex_Selector → Complex_Selector → Bool)
    (s : Complex_Selector) (l1 l2 : List Complex_Selector) :
    inSet lt s (l1 ++ l2) = (inSet lt s l1 || inSet lt s l2) := by
  simp [inSet, List.any_append]

theorem inSet_cons (lt : Complex_Selector → Complex_Selector → Bool)
    (s x : Complex_Selector) (l : List Complex_Selector) :
    inSet lt s (x :: l) = (equivB lt x s || inSet lt s l) := by
  simp [inSet]

theorem inSet_nil (lt : Complex_Selector → Complex_Selector → Bool)
    (s : Complex_Selector) : inSet lt s [] = false := rfl

theorem naiveTrimLoop_eq_dedup (lt : Complex_Selector → Complex_Selector → Bool) :
    ∀ (l : List Node) (selSet : List Complex_Selector) (res : List Node),
      naiveTrimLoop lt l selSet res = res ++ naiveTrimLoop lt l selSet [] := by
  intro l
  induction l with
  | nil => intro selSet res; simp [naiveTrimLoop]
  | cons n rest ih =>
    intro selSet res
    cases n with
    | selector s =>
      simp only [naiveTrimLoop]
      by_cases h : inSet lt s selSet = true
      · rw [if_pos h, if_pos h]
        exact ih _ _
      · rw [if_neg h, if_neg h, ih _ (res ++ [Node.selector s]),
          ih _ ([] ++ [Node.selector s])]
        simp
    | combinator c =>
      simp only [naiveTrimLoop]
      rw [ih _ (res ++ [Node.combinator c]), ih _ ([] ++ [Node.combinator c])]
      simp
    | collection ch =>
      simp only [naiveTrimLoop]
      rw [ih _ (res ++ [Node.collection ch]), ih _ ([] ++ [Node.collection ch])]
      simp
    | nil =>
      simp only [naiveTrimLoop]
      rw [ih _ (res ++ [Node.nil]), ih _ ([] ++ [Node.nil])]
      simp

theorem trimSpecA_append_nonsel (lt : Complex_Selector → Complex_Selector → Bool)
    (n : Node) (hn : ∀ s, n ≠ Node.selector s) :
    ∀ (ns : List Node) (seen : List Complex_Selector),
      trimSpecA lt (ns ++ [n]) seen = trimSpecA lt ns seen ++ [n] := by
  have hsel : selsOf [n] = [] := by
    cases n with
    | selector s => exact absurd rfl (hn s)
    | combinator c => rfl
    | collection ch => rfl
    | nil => rfl
  intro ns
  induction ns with
  | nil =>
    intro seen
    cases n with
    | selector s => exact absurd rfl (hn s)
    | combinator c => rfl
    | collection ch => rfl
    | nil => rfl
  | cons m rest ih =>
    intro seen
    cases m with
    | selector s0 =>
      simp only [List.cons_append, trimSpecA, List.append_eq]
      rw [selsOf_append, hsel, List.append_nil]
      by_cases h : (inSet lt s0 (selsOf rest) || inSet lt s0 seen) = true
      · rw [if_pos h, if_pos h]
        exact ih seen
      · rw [if_neg h, if_neg h, ih seen]
        rfl
    | combinator c =>
      simp only [List.cons_append, trimSpecA, List.append_eq]
      rw [ih seen]
    | collection ch =>
      simp only [List.cons_append, trimSpecA, List.append_eq]
      rw [ih seen]
    | nil =>
      simp only [List.cons_append, trimSpecA, List.append_eq]
      rw [ih seen]

theorem trimSpecA_append_dup (lt : Complex_Selector → Complex_Selector → Bool)
    (htrans : ∀ a b c, equivB lt a b = true → equivB lt b c = true →
      equivB lt a c = true)
    (s : Complex_Selector) :
    ∀ (ns : List Node) (seen : List Complex_Selector),
      inSet lt s seen = true →
      trimSpecA lt (ns ++ [Node.selector s]) seen = trimSpecA lt ns seen := by
  intro ns
  induction ns with
  | nil =>
    intro seen hseen
    simp only [List.nil_append, trimSpecA]
    have hcond : (inSet lt s (selsOf ([] : List Node)) || inSet lt s seen) = true := by
      simp [selsOf, hseen]
    rw [hcond]
    rfl
  | cons m rest ih =>
    intro seen hseen
    cases m with
    | selector s0 =>
      simp only [List.cons_append, trimSpecA, List.append_eq]
      rw [selsOf_append]
      have hsn : selsOf [Node.selector s] = [s] := rfl
      rw [hsn, inSet_append, inSet_cons, inSet_nil, Bool.or_false]
      by_cases he : equivB lt s s0 = true
      · have h2 : inSet lt s0 seen = true := by
          simp only [inSet, List.any_eq_true] at hseen ⊢
          obtain ⟨x, hx, hxe⟩ := hseen
          exact ⟨x, hx, htrans x s s0 hxe he⟩
        have hc1 : ((inSet lt s0 (selsOf rest) || equivB lt s s0) ||
            inSet lt s0 seen) = true := by
          rw [he]; simp
        have hc2 : (inSet lt s0 (selsOf rest) || inSet lt s0 seen) = true := by
          rw [h2]; simp
        rw [if_pos hc1, if_pos hc2]
        exact ih seen hseen
      · have he' : equivB lt s s0 = false := Bool.eq_false_iff.mpr he
        rw [he', Bool.or_false]
        by_cases h : (inSet lt s0 (selsOf rest) || inSet lt s0 seen) = true
        · rw [if_pos h, if_pos h]
          exact ih seen hseen
        · rw [if_neg h, if_neg h, ih seen hseen]
    | combinator c =>
      simp only [List.cons_append, trimSpecA, List.append_eq]
      rw [ih seen hseen]
    | collection ch =>
      simp only [List.cons_append, trimSpecA, List.append_eq]
      rw [ih seen hseen]
    | nil =>
      simp only [List.cons_append, trimSpecA, List.append_eq]
      rw [ih seen hseen]

theorem trimSpecA_append_new (lt : Complex_Selector → Complex_Selector → Bool)
    (s : Complex_Selector) :
    ∀ (ns : List Node) (seen : List Complex_Selector),
      inSet lt s seen = false →
      trimSpecA lt (ns ++ [Node.selector s]) seen =
        trimSpecA lt ns (s :: seen) ++ [Node.selector s] := by
  intro ns
  induction ns with
  | nil =>
    intro seen hs
    simp only [List.nil_append, trimSpecA]
    have hcond : (inSet lt s (selsOf ([] : List Node)) || inSet lt s seen) = false := by
      simp [selsOf, inSet_nil, hs]
    rw [hcond]
    rfl
  | cons m rest ih =>
    intro seen hs
    cases m with
    | selector s0 =>
      simp only [List.cons_append, trimSpecA, List.append_eq]
      rw [selsOf_append]
      have hsn : selsOf [Node.selector s] = [s] := rfl
      rw [hsn, inSet_append, inSet_cons, inSet_cons, inSet_nil, Bool.or_false]
      have hcond : (inSet lt s0 (selsOf rest) || equivB lt s s0 ||
          inSet lt s0 seen) = (inSet lt s0 (selsOf rest) ||
          (equivB lt s s0 || inSet lt s0 seen)) := by
        rw [Bool.or_assoc]
      rw [hcond]
      by_cases h : (inSet lt s0 (selsOf rest) ||
          (equivB lt s s0 || inSet lt s0 seen)) = true
      · rw [if_pos h, if_pos h]
        exact ih seen hs
      · rw [if_neg h, if_neg h, ih seen hs]
        rfl
    | combinator c =>
      simp only [List.cons_append, trimSpecA, List.append_eq]
      rw [ih seen hs]
    | collection ch =>
      simp only [List.cons_append, trimSpecA, List.append_eq]
      rw [ih seen hs]
    | nil =>
      simp only [List.cons_append, trimSpecA, List.append_eq]
      rw [ih seen hs]

theorem naiveTrimLoop_reverse (lt : Complex_Selector → Complex_Selector → Bool)
    (htrans : ∀ a b c, equivB lt a b = true → equivB lt b c = true →
      equivB lt a c = true) :
    ∀ (ns : List Node) (seen : List Complex_Selector),
      naiveTrimLoop lt ns.reverse seen [] = (trimSpecA lt ns seen).reverse := by
  intro ns
  induction ns using List.reverseRecOn with
  | nil => intro seen; simp [naiveTrimLoop, trimSpecA]
  | append_singleton l n ih =>
    intro seen
    have hrev : (l ++ [n]).reverse = n :: l.reverse := by simp
    rw [hrev]
    cases n with
    | selector s =>
      simp only [naiveTrimLoop]
      by_cases hs : inSet lt s seen = true
      · rw [if_pos hs, ih seen, trimSpecA_append_dup lt htrans s l seen hs]
      · have hs' : inSet lt s seen = false := Bool.eq_false_iff.mpr hs
        rw [if_neg hs, naiveTrimLoop_eq_dedup, ih (s :: seen),
          trimSpecA_append_new lt s l seen hs']
        simp
    | combinator c =>
      simp only [naiveTrimLoop]
      rw [naiveTrimLoop_eq_dedup, ih seen,
        trimSpecA_append_nonsel lt _ (fun s => by simp) l seen]
      simp
    | collection ch =>
      simp only [naiveTrimLoop]
      rw [naiveTrimLoop_eq_dedup, ih seen,
        trimSpecA_append_nonsel lt _ (fun s => by simp) l seen]
      simp
    | nil =>
      simp only [naiveTrimLoop]
      rw [naiveTrimLoop_eq_dedup, ih seen,
        trimSpecA_append_nonsel lt _ (fun s => by simp) l seen]
      simp

theorem trimSpec_represents (lt : Complex_Selector → Complex_Selector → Bool)
    (hirr : ∀ a, lt a a = false)
    (htrans : ∀ a b c, equivB lt a b = true → equivB lt b c = true →
      equivB lt a c = true) :
    ∀ (ns : List Node) (s : Complex_Selector),
      Node.selector s ∈ ns →
      ∃ x, Node.selector x ∈ trimSpecA lt ns [] ∧ equivB lt s x = true := by
  intro ns
  induction ns with
  | nil => intro s h; simp at h
  | cons n rest ih =>
    intro s hmem
    rcases List.mem_cons.mp hmem with heq | hmem'
    · subst heq
      simp only [trimSpecA]
      by_cases hc : (inSet lt s (selsOf rest) || inSet lt s []) = true
      · rw [if_pos hc]
        have hc' : inSet lt s (selsOf rest) = true := by
          simpa [inSet_nil] using hc
        simp only [inSet, List.any_eq_true] at hc'
        obtain ⟨x, hx, hxe⟩ := hc'
        obtain ⟨y, hy, hye⟩ := ih x ((mem_selsOf x rest).mp hx)
        exact ⟨y, hy, htrans s x y (equivB_symm lt x s hxe) hye⟩
      · rw [if_neg hc]
        refine ⟨s, List.mem_cons_self _ _, ?_⟩
        simp [equivB, hirr s]
    · obtain ⟨y, hy, hye⟩ := ih s hmem'
      cases n with
      | selector s0 =>
        simp only [trimSpecA]
        by_cases hc : (inSet lt s0 (selsOf rest) || inSet lt s0 []) = true
        · rw [if_pos hc]
          exact ⟨y, hy, hye⟩
        · rw [if_neg hc]
          exact ⟨y, List.mem_cons_of_mem _ hy, hye⟩
      | combinator c =>
        exact ⟨y, List.mem_cons_of_mem _ hy, hye⟩
      | collection ch =>
        exact ⟨y, List.mem_cons_of_mem _ hy, hye⟩
      | nil =>
        exact ⟨y, List.mem_cons_of_mem _ hy, hye⟩

/-- C4 (claim theorem): `naiveTrim`, walking the alternatives back-to-front
and skipping any selector already present in the kept `SourcesSet`, equals
the forward specification `trimSpec` — a selector alternative is dropped
exactly when an equivalent alternative occurs later, every non-selector entry
is kept, and the original relative order is preserved — and every selector of
the input has an equivalent representative in the output.  The hypotheses are
the strict-weak-order laws C++ requires of the `std::set` comparator. -/
theorem naiveTrim_spec (lt : Complex_Selector → Complex_Selector → Bool)
    (ns : List Node)
    (hirr : ∀ a, lt a a = false)
    (htrans : ∀ a b c, equivB lt a b = true → equivB lt b c = true →
      equivB lt a c = true) :
    naiveTrim lt ns = trimSpec lt ns ∧
      ∀ s, Node.selector s ∈ ns →
        ∃ x, Node.selector x ∈ naiveTrim lt ns ∧ equivB lt s x = true := by
  have heq : naiveTrim lt ns = trimSpec lt ns := by
    unfold naiveTrim trimSpec
    rw [naiveTrimLoop_reverse lt htrans ns [], List.reverse_reverse]
  refine ⟨heq, ?_⟩
  intro s hs
  rw [heq]
  exact trimSpec_represents lt hirr htrans ns s hs

/-- Concrete instance of the C4 theorem: under the trivial comparator (all
selectors equivalent), a three-node collection keeps the combinator and the
last selector only. -/
theorem naiveTrim_spec_witness :
    (∀ a : Complex_Selector, (fun _ _ => false : Complex_Selector →
        Complex_Selector → Bool) a a = false) ∧
    (naiveTrim (fun _ _ => false)
          [Node.selector (.mk .ancestorOf none none),
           Node.combinator .parentOf,
           Node.selector (.mk .parentOf none none)] =
        trimSpec (fun _ _ => false)
          [Node.selector (.mk .ancestorOf none none),
           Node.combinator .parentOf,
           Node.selector (.mk .parentOf none none)] ∧
      ∀ s, Node.selector s ∈
          [Node.selector (.mk .ancestorOf none none),
           Node.combinator .parentOf,
           Node.selector (.mk .parentOf none none)] →
        ∃ x, Node.selector x ∈ naiveTrim (fun _ _ => false)
            [Node.selector (.mk .ancestorOf none none),
             Node.combinator .parentOf,
             Node.selector (.mk .parentOf none none)] ∧
          equivB (fun _ _ => false) s x = true) :=
  ⟨fun _ => rfl,
   naiveTrim_spec (fun _ _ => false) _ (fun _ => rfl) (fun _ _ _ _ _ => rfl)⟩

/-! The `Hashed` mixin and `Expression` hashing (`src/ast.hpp` lines
152-293). -/

/-- A cut of the `Expression` value hierarchy sufficient for map keys: null,
booleans, flat strings and variable references, with their `hash()` overrides
(`ast.hpp` lines 1586-1589, 1307-1313, 1396-1402, 1130-1133).  The standard
library hashes `std::hash<string>`/`std::hash<bool>` are implementation
defined and therefore parameters `hs`/`hb`; `Null::hash` returns `-1` as a
`size_t`. -/
inductive Expr where
  | null
  | boolean (value : Bool)
  | strConst (value : String)
  | variable (name : String)
deriving Repr, DecidableEq

/-- Virtual `Expression::hash` dispatch over the `Expr` cut. -/
def Expr.hash (hs : String → Nat) (hb : Bool → Nat) : Expr → Nat
  | .null => 2 ^ 64 - 1
  | .boolean b => hb b
  | .strConst v => hs v
  | .variable n => hs n

/-- `std::equal_to<Sass::Expression*>` (`ast.hpp` lines 165-172): two keys
are equal exactly when their hashes are equal. -/
def exprKeyEq (hs : String → Nat) (hb : Bool → Nat) (a b : Expr) : Bool :=
  Expr.hash hs hb a == Expr.hash hs hb b

/-- The `Hashed` mixin state (`ast.hpp` lines 235-292): the hash-keyed table
(`elements_`, an association by hash equality), the insertion-ordered key
list (`list_`) and the duplicate-key marker. -/
structure Hashed where
  elements : List (Expr × Expr)
  list : List Expr
  duplicate_key : Option Expr
deriving Repr, DecidableEq

/-- A fresh `Hashed` (`ast.hpp` line 246): empty table, empty key list, null
duplicate marker. -/
def Hashed.empty : Hashed := ⟨[], [], none⟩

/-- `unordered_map::operator[]` assignment under hash-equality: replace the
value of the first hash-equal key (keeping the stored key object), else
append the new pair. -/
def assocUpdate (hs : String → Nat) (hb : Bool → Nat) :
    List (Expr × Expr) → Expr → Expr → List (Expr × Expr)
  | [], k, v => [(k, v)]
  | (k0, v0) :: rest, k, v =>
    if exprKeyEq hs hb k0 k then (k0, v) :: rest
    else (k0, v0) :: assocUpdate hs hb rest k v

/-- `Hashed::has` (`ast.hpp` line 251): `elements_.count(k) == 1` under
hash-equality. -/
def Hashed.has (hs : String → Nat) (hb : Bool → Nat) (m : Hashed)
    (k : Expr) : Bool :=
  m.elements.any fun q => exprKeyEq hs hb q.1 k

/-- `Hashed::at` (declared at `ast.hpp` line 252; the out-of-line body is not
under `src/`, but the behaviour is fixed by the container type: lookup in
`elements_` under the hash-equality `equal_to`). -/
def Hashed.at (hs : String → Nat) (hb : Bool → Nat) (m : Hashed)
    (k : Expr) : Option Expr :=
  (m.elements.find? fun q => exprKeyEq hs hb q.1 k).map Prod.snd

/-- `Hashed::operator<<` (`ast.hpp` lines 256-267): append the key to `list_`
only when absent; otherwise record it as the duplicate key if none is
recorded yet; always store the value. -/
def Hashed.insert (hs : String → Nat) (hb : Bool → Nat) (m : Hashed)
    (p : Expr × Expr) : Hashed :=
  { elements := assocUpdate hs hb m.elements p.1 p.2,
    list := if m.has hs hb p.1 then m.list else m.list ++ [p.1],
    duplicate_key :=
      if m.has hs hb p.1 then
        match m.duplicate_key with
        | none => some p.1
        | some d => some d
      else m.duplicate_key }

/-- `Hashed::has_duplicate_key` (`ast.hpp` line 253). -/
def Hashed.has_duplicate_key (m : Hashed) : Bool := m.duplicate_key.isSome

/-- `Hashed::get_duplicate_key` (`ast.hpp` line 254). -/
def Hashed.get_duplicate_key (m : Hashed) : Option Expr := m.duplicate_key

theorem assocUpdate_find (hs : String → Nat) (hb : Bool → Nat)
    (k1 k2 v : Expr) (hk : Expr.hash hs hb k1 = Expr.hash hs hb k2) :
    ∀ l : List (Expr × Expr),
      (assocUpdate hs hb l k1 v).find? (fun q => exprKeyEq hs hb q.1 k2) =
        some ((assocUpdate hs hb l k1 v).find?
            (fun q => exprKeyEq hs hb q.1 k2) |>.getD (k1, v)) ∧
      ((assocUpdate hs hb l k1 v).find?
          (fun q => exprKeyEq hs hb q.1 k2) |>.getD (k1, v)).2 = v := by
  intro l
  induction l with
  | nil =>
    simp only [assocUpdate, List.find?_singleton]
    have h12 : exprKeyEq hs hb k1 k2 = true := by
      simp [exprKeyEq, hk]
    simp [h12]
  | cons q rest ih =>
    obtain ⟨k0, v0⟩ := q
    simp only [assocUpdate]
    by_cases h01 : exprKeyEq hs hb k0 k1 = true
    · have h02 : exprKeyEq hs hb k0 k2 = true := by
        simp only [exprKeyEq, beq_iff_eq] at *
        omega
      rw [if_pos h01]
      simp [List.find?_cons, h02]
    · have h01' : exprKeyEq hs hb k0 k1 = false := Bool.eq_false_iff.mpr h01
      have h02 : exprKeyEq hs hb k0 k2 = false := by
        simp only [exprKeyEq, beq_iff_eq, beq_eq_false_iff_ne, Ne] at *
        omega
      rw [if_neg h01]
      simp only [List.find?_cons, h02]
      exact ih

/-- C7 (claim theorem): keys with equal hashes are the same key to the map —
after inserting `(k1, v)`, both `has k2` and `at k2 = v` hold for any `k2`
whose hash equals `k1`'s, regardless of structural equality, because the
table's `equal_to` compares hashes only. -/
theorem hashed_key_equality_by_hash (hs : String → Nat) (hb : Bool → Nat)
    (m : Hashed) (k1 k2 v : Expr)
    (hk : Expr.hash hs hb k1 = Expr.hash hs hb k2) :
    (m.insert hs hb (k1, v)).has hs hb k2 = true ∧
      (m.insert hs hb (k1, v)).at hs hb k2 = some v := by
  obtain ⟨hfind, hsnd⟩ := assocUpdate_find hs hb k1 k2 v hk m.elements
  constructor
  · simp only [Hashed.has, Hashed.insert]
    rw [List.any_eq_true]
    refine ⟨_, List.mem_of_find?_eq_some hfind, ?_⟩
    have hp := List.find?_some hfind
    simpa using hp
  · simp only [Hashed.at, Hashed.insert]
    rw [hfind]
    simp [hsnd]

/-- Concrete instance of the C7 theorem: with a length hash, the structurally
different keys `strConst "ab"` and `variable "cd"` collide and are treated as
one key. -/
theorem hashed_key_equality_by_hash_witness :
    Expr.hash String.length (fun _ => 0) (.strConst "ab") =
        Expr.hash String.length (fun _ => 0) (.variable "cd") ∧
      ((Hashed.empty.insert String.length (fun _ => 0)
          (.strConst "ab", .boolean true)).has String.length (fun _ => 0)
          (.variable "cd") = true ∧
        (Hashed.empty.insert String.length (fun _ => 0)
          (.strConst "ab", .boolean true)).at String.length (fun _ => 0)
          (.variable "cd") = some (.boolean true)) :=
  ⟨by decide,
   hashed_key_equality_by_hash String.length (fun _ => 0) Hashed.empty
     (.strConst "ab") (.variable "cd") (.boolean true) (by decide)⟩

theorem hashed_insert_keeps_duplicate (hs : String → Nat) (hb : Bool → Nat)
    (m : Hashed) (p : Expr × Expr) (h : m.duplicate_key.isSome = true) :
    ((m.insert hs hb p).duplicate_key).isSome = true := by
  simp only [Hashed.insert]
  split
  · rcases hd : m.duplicate_key with _ | d
    · rw [hd] at h; simp at h
    · simp
  · exact h

theorem hashed_foldl_keeps_duplicate (hs : String → Nat) (hb : Bool → Nat) :
    ∀ (ps : List (Expr × Expr)) (m : Hashed),
      m.duplicate_key.isSome = true →
      (ps.foldl (fun acc p => acc.insert hs hb p) m).duplicate_key.isSome = true := by
  intro ps
  induction ps with
  | nil => intro m h; exact h
  | cons p rest ih =>
    intro m h
    exact ih _ (hashed_insert_keeps_duplicate hs hb m p h)

/-- C6 (claim theorem): inserting `(k, v)` for an already-present key `k`
keeps the key list unchanged (the key's first position is preserved and `k`
is not appended), stores `v` as the key's value (last wins), marks the
duplicate — `has_duplicate_key` becomes true and stays true across any
further insertions — and `get_duplicate_key` reports the first duplicated
key: `k` if no duplicate was recorded before, otherwise the earlier record. -/
theorem hashed_duplicate_insert (hs : String → Nat) (hb : Bool → Nat)
    (m : Hashed) (k v : Expr) (hhas : m.has hs hb k = true) :
    (m.insert hs hb (k, v)).list = m.list ∧
      (m.insert hs hb (k, v)).at hs hb k = some v ∧
      (m.insert hs hb (k, v)).has_duplicate_key = true ∧
      (m.duplicate_key = none →
        (m.insert hs hb (k, v)).get_duplicate_key = some k) ∧
      (∀ d, m.duplicate_key = some d →
        (m.insert hs hb (k, v)).get_duplicate_key = some d) ∧
      (∀ ps : List (Expr × Expr),
        (ps.foldl (fun acc p => acc.insert hs hb p)
            (m.insert hs hb (k, v))).has_duplicate_key = true) := by
  have hdup : ((m.insert hs hb (k, v)).duplicate_key).isSome = true := by
    simp only [Hashed.insert, if_pos hhas]
    rcases m.duplicate_key with _ | d <;> simp
  refine ⟨?_, ?_, ?_, ?_, ?_, ?_⟩
  · simp [Hashed.insert, hhas]
  · exact (hashed_key_equality_by_hash hs hb m k k v rfl).2
  · exact hdup
  · intro hnone
    simp [Hashed.insert, hhas, Hashed.get_duplicate_key, hnone]
  · intro d hd
    simp [Hashed.insert, hhas, Hashed.get_duplicate_key, hd]
  · intro ps
    exact hashed_foldl_keeps_duplicate hs hb ps _ hdup

/-- Concrete instance of the C6 theorem: inserting a colliding key (length
hash) into a one-entry map keeps the key list, overwrites the value, and
records the duplicate. -/
theorem hashed_duplicate_insert_witness :
    ((Hashed.empty.insert String.length (fun _ => 0)
        (.strConst "aa", .null)).has String.length (fun _ => 0)
        (.variable "bb") = true) ∧
      (((Hashed.empty.insert String.length (fun _ => 0)
          (.strConst "aa", .null)).insert String.length (fun _ => 0)
          (.variable "bb", .boolean true)).list = [.strConst "aa"] ∧
        ((Hashed.empty.insert String.length (fun _ => 0)
          (.strConst "aa", .null)).insert String.length (fun _ => 0)
          (.variable "bb", .boolean true)).at String.length (fun _ => 0)
          (.variable "bb") = some (.boolean true) ∧
        ((Hashed.empty.insert String.length (fun _ => 0)
          (.strConst "aa", .null)).insert String.length (fun _ => 0)
          (.variable "bb", .boolean true)).get_duplicate_key =
            some (.variable "bb")) :=
  ⟨by decide,
   by
    obtain ⟨h1, h2, _, h4, _, _⟩ :=
      hashed_duplicate_insert String.length (fun _ => 0)
        (Hashed.empty.insert String.length (fun _ => 0) (.strConst "aa", .null))
        (.variable "bb") (.boolean true) (by decide)
    exact ⟨by rw [h1]; decide, h2, h4 (by decide)⟩⟩

/-! The `Expression` constructor flags (`src/ast.hpp` lines 110-124). -/

/-- `Expression::Concrete_Type` (`ast.hpp` lines 96-109). -/
inductive Concrete_Type where
  | none
  | boolean
  | number
  | color
  | string
  | list
  | map
  | selector
  | null_val
  | c_warning
  | c_error
  | num_types
deriving Repr, DecidableEq

/-- The flag fields of `Expression` (`ast.hpp` lines 112-115). -/
structure ExpressionFlags where
  is_delayed : Bool
  is_expanded : Bool
  is_interpolant : Bool
  concrete_type : Concrete_Type
deriving Repr, DecidableEq

/-- The `Expression` constructor (`ast.hpp` lines 117-124): note the
initializer list sets `is_expanded_(d)` from the delayed argument, ignoring
the expanded argument `e`. -/
def Expression.construct (d e i : Bool) (ct : Concrete_Type) : ExpressionFlags :=
  { is_delayed := d, is_expanded := d, is_interpolant := i, concrete_type := ct }

/-- C9 (claim theorem): the constructed `is_expanded` flag equals the
`is_delayed` argument `d` and is independent of the expanded argument `e`. -/
theorem expression_construct_aliases_expanded :
    (∀ (d e i : Bool) (ct : Concrete_Type),
        (Expression.construct d e i ct).is_expanded = d)
    ∧ (∀ (d e e' i : Bool) (ct : Concrete_Type),
        Expression.construct d e i ct = Expression.construct d e' i ct) := by
  exact ⟨fun _ _ _ _ => rfl, fun _ _ _ _ _ => rfl⟩

/-! The `Vectorized` mixin (`src/ast.hpp` lines 183-229) and `Block`
(`ast.hpp` lines 333-353). -/

/-- Statement kinds sufficient for `Statement::is_hoistable` dispatch:
`Ruleset` (line 381), `Media_Block` (line 424), `Supports_Block` (line 443)
and `At_Root_Block` (line 1546) override it to true; the base returns
false (line 323). -/
inductive Stmt where
  | ruleset
  | mediaBlock
  | supportsBlock
  | atRootBlock
  | declaration
  | comment
  | assignment
deriving Repr, DecidableEq

/-- Virtual `Statement::is_hoistable` dispatch. -/
def Stmt.is_hoistable : Stmt → Bool
  | .ruleset => true
  | .mediaBlock => true
  | .supportsBlock => true
  | .atRootBlock => true
  | _ => false

/-- The `Vectorized` mixin state: elements, the cached hash `hash_`, and the
subclass state touched by `adjust_after_pushing` (the "Template Method"
hook). -/
structure Vectorized (τ : Type) (σ : Type) where
  elements : List τ
  hash : Nat
  extra : σ
deriving Repr, DecidableEq

/-- `Vectorized::operator<<` (`ast.hpp` lines 200-207): a null element
returns immediately; otherwise the cached hash is reset, the element is
appended, and `adjust_after_pushing` runs. -/
def Vectorized.push {τ σ : Type} (adjust : σ → τ → σ)
    (v : Vectorized τ σ) (x : Option τ) : Vectorized τ σ :=
  match x with
  | none => v
  | some e => { elements := v.elements ++ [e], hash := 0, extra := adjust v.extra e }

/-- The cumulative flags of `Block` (`ast.hpp` lines 337-338). -/
structure BlockFlags where
  has_hoistable : Bool
  has_non_hoistable : Bool
deriving Repr, DecidableEq

/-- `Block::adjust_after_pushing` (`ast.hpp` lines 340-344). -/
def Block.adjust (f : BlockFlags) (s : Stmt) : BlockFlags :=
  if s.is_hoistable then { f with has_hoistable := true }
  else { f with has_non_hoistable := true }

/-- C10 (claim theorem): appending a null element through
`Vectorized::operator<<` leaves the container's entire state unchanged — no
element is added, the cached hash is not reset, `adjust_after_pushing` does
not run — and in particular a `Block`'s `has_hoistable` and
`has_non_hoistable` flags are untouched. -/
theorem vectorized_push_null :
    (∀ (τ σ : Type) (adjust : σ → τ → σ) (v : Vectorized τ σ),
        v.push adjust none = v
          ∧ (v.push adjust none).elements = v.elements
          ∧ (v.push adjust none).hash = v.hash
          ∧ (v.push adjust none).extra = v.extra)
    ∧ (∀ b : Vectorized Stmt BlockFlags,
        b.push Block.adjust none = b
          ∧ (b.push Block.adjust none).extra.has_hoistable =
              b.extra.has_hoistable
          ∧ (b.push Block.adjust none).extra.has_non_hoistable =
              b.extra.has_non_hoistable) := by
  exact ⟨fun _ _ _ _ => ⟨rfl, rfl, rfl, rfl⟩, fun _ => ⟨rfl, rfl, rfl⟩⟩

end Sass
